import Mathlib

/-!
Verification of `seckey`'s `TempKey` wrapper (`src/tempkey.rs`).

A value of the wrapped Rust type `T : Sized + Copy` is modelled by its
in-memory byte representation, a `List Nat` (one entry per byte of
`size_of::<T>()`).  The external memory-lock provider (the `memsec` crate) is
modelled from its documented contract: `memeq`/`memcmp` are byte-exact
constant-time comparisons that visit every byte without an early exit, and
`mlock`/`munlock` are best-effort pin/unpin calls whose success is reported
by a `Bool` the wrapper is free to discard.  The cost of a comparison is made
explicit by a step counter that counts one step per byte pair visited.

Scope-exit (RAII) semantics of the wrapper are modelled by an event trace:
`TempKey.new` emits the lock request, `TempKey.drop` the unlock request, and
`runScope` composes construction, a prefix of the body's operations (the
prefix models every exit path: a full run is a normal return, a proper prefix
an early return or a propagated panic) and the destructor.
-/

namespace Seckey

/-- Modelled from the spec's provider contract (`constant_time_equal`), with the
loop structure of `memsec::memeq`: fold the bitwise-or of the xors of all byte
pairs, visiting every pair.  Returns the accumulator and the number of byte
pairs visited. -/
def ctEqRun : List Nat → List Nat → Nat × Nat
  | x :: xs, y :: ys =>
    let r := ctEqRun xs ys
    (((x ^^^ y) ||| r.1), r.2 + 1)
  | _, _ => (0, 0)

/-- `memsec::memeq`: true iff the or-of-xors accumulator is zero. -/
def memeq (b1 b2 : List Nat) : Bool := (ctEqRun b1 b2).1 == 0

/-- Modelled from the spec's provider contract (`constant_time_compare`), with
the loop structure of `memsec::memcmp`: every byte pair is visited, and the
difference at the lowest differing index is the result (the loop runs from the
highest index down, later updates overriding earlier ones).  Returns that
difference (or 0) and the number of byte pairs visited. -/
def ctCmpRun : List Nat → List Nat → Int × Nat
  | x :: xs, y :: ys =>
    let r := ctCmpRun xs ys
    ((if (x : Int) - (y : Int) = 0 then r.1 else (x : Int) - (y : Int)), r.2 + 1)
  | _, _ => (0, 0)

/-- `memsec::memcmp`: the sign (-1, 0 or 1) of the first byte difference. -/
def memcmp (b1 b2 : List Nat) : Int := (ctCmpRun b1 b2).1.sign

/-- Rust's `i32::cmp`, used by `partial_cmp` as `order.cmp(&0)`. -/
def intCmp (a b : Int) : Ordering :=
  if a < b then Ordering.lt else if a = b then Ordering.eq else Ordering.gt

/-- Requests the wrapper makes of its environment.  `allocEv`/`freeEv` are in
the alphabet so that "the wrapper never allocates or frees" is expressible;
no operation of the wrapper emits them. -/
inductive Event
  | lockEv
  | unlockEv
  | readEv
  | writeEv
  | eqEv
  | cmpEv
  | allocEv
  | freeEv
deriving DecidableEq

/-- `TempKey<'a, T>(&'a mut T)`: the borrowed value is modelled by the address
it lives at and its current byte contents. -/
structure TempKey where
  addr : Nat
  target : List Nat
deriving DecidableEq

/-- The provider's `mlock`: returns whether pinning succeeded and emits the
lock request. -/
def mlock (lockOk : Bool) : Bool × List Event := (lockOk, [Event.lockEv])

/-- The provider's `munlock`: returns whether unpinning succeeded and emits
the unlock request. -/
def munlock (unlockOk : Bool) : Bool × List Event := (unlockOk, [Event.unlockEv])

/-- `TempKey::new`: calls `mlock` (discarding its result, as the source's
`unsafe { mlock(t, size) };` statement does) and wraps the borrow. -/
def TempKey.new (lockOk : Bool) (addr : Nat) (t : List Nat) : TempKey × List Event :=
  (⟨addr, t⟩, (mlock lockOk).2)

/-- `Deref::deref`: direct read access to the wrapped value. -/
def TempKey.deref (k : TempKey) : List Nat := k.target

/-- Writing `*key = v` through `DerefMut::deref_mut`: the wrapped value's
bytes become `v`. -/
def TempKey.deref_mut_write (k : TempKey) (v : List Nat) : TempKey :=
  { k with target := v }

/-- `PartialEq<T>::eq`: constant-time comparison against a raw value. -/
def TempKey.eq (k : TempKey) (rhs : List Nat) : Bool := memeq k.target rhs

/-- `PartialEq<TempKey>::eq`: delegates to the raw-value comparison
(`self.eq(rhs as &T)` in the source). -/
def TempKey.eq_key (a b : TempKey) : Bool := a.eq b.target

/-- `PartialOrd<T>::partial_cmp`: `Some(order.cmp(&0))` where `order` is the
provider's three-way result. -/
def TempKey.partial_cmp (k : TempKey) (rhs : List Nat) : Option Ordering :=
  some (intCmp (memcmp k.target rhs) 0)

/-- `PartialOrd<TempKey>::partial_cmp`: delegates to the raw-value comparison
(`self.partial_cmp(rhs as &T)` in the source). -/
def TempKey.partial_cmp_key (a b : TempKey) : Option Ordering :=
  a.partial_cmp b.target

/-- Rust's `Option::unwrap`, with the panic made explicit as an error. -/
def unwrapOpt : Option α → Except Unit α
  | some a => Except.ok a
  | none => Except.error ()

/-- `Ord::cmp`: `self.partial_cmp(rhs).unwrap()`. -/
def TempKey.cmp (a b : TempKey) : Except Unit Ordering :=
  unwrapOpt (a.partial_cmp_key b)

/-- `Drop::drop`: calls `munlock` (discarding its result) and leaves the
wrapped bytes as they are — first component is the memory's contents after
release. -/
def TempKey.drop (unlockOk : Bool) (k : TempKey) : List Nat × List Event :=
  (k.target, (munlock unlockOk).2)

/-- One hexadecimal digit as its lowercase ASCII code. -/
def hexDigitCode (n : Nat) : Nat := if n < 10 then 48 + n else 87 + n

/-- ASCII codes of a number's lowercase hexadecimal representation, as Rust's
pointer formatting `{:p}` renders the address. -/
def hexCodes : Nat → List Nat
  | n =>
    if _h : n < 16 then [hexDigitCode n]
    else hexCodes (n / 16) ++ [hexDigitCode (n % 16)]
decreasing_by exact Nat.div_lt_self (by omega) (by omega)

/-- `fmt::Debug::fmt`: the ASCII codes of `TempKey(0x<addr in hex>)` — the
output of `f.debug_tuple("TempKey").field(&format_args!("{:p}", self.0))`.
It reads only the wrapper's address, never the wrapped bytes. -/
def TempKey.fmt (k : TempKey) : List Nat :=
  [84, 101, 109, 112, 75, 101, 121, 40, 48, 120] ++ hexCodes k.addr ++ [41]

/-- The number of byte-visiting steps the equality operation performs. -/
def TempKey.eqSteps (k : TempKey) (rhs : List Nat) : Nat := (ctEqRun k.target rhs).2

/-- The number of byte-visiting steps the three-way comparison performs. -/
def TempKey.cmpSteps (k : TempKey) (rhs : List Nat) : Nat := (ctCmpRun k.target rhs).2

/-- The operations a scope's body can perform on the wrapper. -/
inductive TKOp
  | readOp
  | writeOp (v : List Nat)
  | eqRawOp (v : List Nat)
  | cmpRawOp (v : List Nat)
deriving DecidableEq

/-- Whether an operation is a mutate access. -/
def TKOp.isWrite : TKOp → Bool
  | .writeOp _ => true
  | _ => false

/-- The request an operation makes of the environment. -/
def opEvent : TKOp → Event
  | .readOp => Event.readEv
  | .writeOp _ => Event.writeEv
  | .eqRawOp _ => Event.eqEv
  | .cmpRawOp _ => Event.cmpEv

/-- The wrapped bytes after an operation: only mutate access changes them. -/
def applyOp (m : List Nat) : TKOp → List Nat
  | .writeOp v => v
  | _ => m

/-- Run a body: thread the wrapped bytes through the operations, collecting
one event per operation. -/
def runOps : List Nat → List TKOp → List Nat × List Event
  | m, [] => (m, [])
  | m, op :: rest =>
    let r := runOps (applyOp m op) rest
    (r.1, opEvent op :: r.2)

/-- A whole scope holding a `TempKey`: construction, then the first `cut`
operations of the body (`cut ≥ ops.length` is a normal return, a smaller `cut`
an early return or a propagated panic), then — on every such exit path — the
destructor.  Returns the final memory contents and the event trace. -/
def runScope (lockOk unlockOk : Bool) (addr : Nat) (t : List Nat)
    (ops : List TKOp) (cut : Nat) : List Nat × List Event :=
  let kn := TempKey.new lockOk addr t
  let body := runOps kn.1.target (ops.take cut)
  let dr := TempKey.drop unlockOk ⟨addr, body.1⟩
  (dr.1, kn.2 ++ body.2 ++ dr.2)

theorem lor_eq_zero (a b : Nat) : a ||| b = 0 ↔ a = 0 ∧ b = 0 := by
  constructor
  · intro h
    refine ⟨Nat.eq_of_testBit_eq fun i => ?_, Nat.eq_of_testBit_eq fun i => ?_⟩
    · have h2 := congrArg (fun n => n.testBit i) h
      simp only [Nat.testBit_lor, Nat.zero_testBit, Bool.or_eq_false_iff] at h2
      simp [h2.1]
    · have h2 := congrArg (fun n => n.testBit i) h
      simp only [Nat.testBit_lor, Nat.zero_testBit, Bool.or_eq_false_iff] at h2
      simp [h2.2]
  · rintro ⟨rfl, rfl⟩; rfl

theorem ctEqRun_fst_eq_zero_iff :
    ∀ a b : List Nat, a.length = b.length → ((ctEqRun a b).1 = 0 ↔ a = b) := by
  intro a
  induction a with
  | nil =>
    intro b h
    cases b with
    | nil => simp [ctEqRun]
    | cons y ys => simp at h
  | cons x xs ih =>
    intro b h
    cases b with
    | nil => simp at h
    | cons y ys =>
      simp only [ctEqRun, List.length_cons, Nat.add_right_cancel_iff] at h ⊢
      rw [lor_eq_zero, Nat.xor_eq_zero, ih ys h]
      constructor
      · rintro ⟨h1, h2⟩; simp [h1, h2]
      · rintro h'; injection h' with h1 h2; exact ⟨h1, h2⟩

theorem memeq_iff {a b : List Nat} (h : a.length = b.length) :
    memeq a b = true ↔ a = b := by
  rw [memeq, beq_iff_eq]
  exact ctEqRun_fst_eq_zero_iff a b h

theorem memeq_refl (a : List Nat) : memeq a a = true :=
  (memeq_iff rfl).mpr rfl

theorem ctCmpRun_fst_eq_zero_iff :
    ∀ a b : List Nat, a.length = b.length → ((ctCmpRun a b).1 = 0 ↔ a = b) := by
  intro a
  induction a with
  | nil =>
    intro b h
    cases b with
    | nil => simp [ctCmpRun]
    | cons y ys => simp at h
  | cons x xs ih =>
    intro b h
    cases b with
    | nil => simp at h
    | cons y ys =>
      simp only [List.length_cons, Nat.add_right_cancel_iff] at h
      simp only [ctCmpRun]
      by_cases hd : (x : Int) - (y : Int) = 0
      · have hxy : x = y := by omega
        simp [hd, ih ys h, hxy]
      · have hxy : x ≠ y := by
          intro hx
          exact hd (by simp [hx])
        simp [hd, hxy]

theorem memcmp_eq_zero_iff {a b : List Nat} (h : a.length = b.length) :
    memcmp a b = 0 ↔ a = b := by
  rw [memcmp, Int.sign_eq_zero_iff_zero]
  exact ctCmpRun_fst_eq_zero_iff a b h

theorem ctEqRun_steps : ∀ a b : List Nat, (ctEqRun a b).2 = min a.length b.length := by
  intro a
  induction a with
  | nil => intro b; cases b <;> simp [ctEqRun]
  | cons x xs ih =>
    intro b
    cases b with
    | nil => simp [ctEqRun]
    | cons y ys => simp [ctEqRun, ih ys, Nat.succ_min_succ]

theorem ctCmpRun_steps : ∀ a b : List Nat, (ctCmpRun a b).2 = min a.length b.length := by
  intro a
  induction a with
  | nil => intro b; cases b <;> simp [ctCmpRun]
  | cons x xs ih =>
    intro b
    cases b with
    | nil => simp [ctCmpRun]
    | cons y ys => simp [ctCmpRun, ih ys, Nat.succ_min_succ]

theorem hexDigitCode_lt {n : Nat} (h : n < 16) : hexDigitCode n < 128 := by
  unfold hexDigitCode
  split <;> omega

theorem hexCodes_lt (n : Nat) : ∀ c ∈ hexCodes n, c < 128 := by
  induction n using Nat.strong_induction_on with
  | _ n ih =>
    intro c hc
    rw [hexCodes] at hc
    split at hc
    · next h =>
      simp only [List.mem_singleton] at hc
      exact hc ▸ hexDigitCode_lt h
    · next h =>
      rcases List.mem_append.mp hc with h1 | h2
      · exact ih (n / 16) (Nat.div_lt_self (by omega) (by omega)) c h1
      · simp only [List.mem_singleton] at h2
        exact h2 ▸ hexDigitCode_lt (Nat.mod_lt n (by omega))

theorem runOps_events :
    ∀ (ops : List TKOp) (m : List Nat) (e : Event), e ∈ (runOps m ops).2 →
      e = Event.readEv ∨ e = Event.writeEv ∨ e = Event.eqEv ∨ e = Event.cmpEv := by
  intro ops
  induction ops with
  | nil => intro m e he; simp [runOps] at he
  | cons op rest ih =>
    intro m e he
    simp only [runOps, List.mem_cons] at he
    rcases he with he | he
    · cases op <;> simp [he, opEvent]
    · exact ih (applyOp m op) e he

theorem runOps_fst_of_no_write :
    ∀ (ops : List TKOp) (m : List Nat), (∀ op ∈ ops, op.isWrite = false) →
      (runOps m ops).1 = m := by
  intro ops
  induction ops with
  | nil => intro m _; rfl
  | cons op rest ih =>
    intro m hw
    have hop : applyOp m op = m := by
      cases op with
      | writeOp v => exact absurd (hw _ (List.mem_cons_self _ _)) (by simp [TKOp.isWrite])
      | readOp => rfl
      | eqRawOp v => rfl
      | cmpRawOp v => rfl
    simp only [runOps, hop]
    exact ih m fun op' h' => hw op' (List.mem_cons_of_mem _ h')

theorem runOps_no_resource_events (ops : List TKOp) (m : List Nat) :
    Event.lockEv ∉ (runOps m ops).2 ∧ Event.unlockEv ∉ (runOps m ops).2 ∧
    Event.allocEv ∉ (runOps m ops).2 ∧ Event.freeEv ∉ (runOps m ops).2 := by
  refine ⟨?_, ?_, ?_, ?_⟩ <;>
    · intro h
      rcases runOps_events ops m _ h with h' | h' | h' | h' <;> exact absurd h' (by decide)

theorem intCmp_eq_iff (a b : Int) : intCmp a b = Ordering.eq ↔ a = b := by
  unfold intCmp
  split_ifs with h1 h2
  · constructor
    · intro hc; exact absurd hc (by decide)
    · intro he; exact absurd he (by omega)
  · simp [h2]
  · constructor
    · intro hc; exact absurd hc (by decide)
    · intro he; exact absurd he (by omega)

/-- C1: in every scope holding a `TempKey` — whatever the body does and
however the scope exits — the provider's lock is requested exactly once, as
the first event (at construction, before any other operation), and unlock is
requested exactly once, as the last event (at drop); in particular unlock
never fires before lock and no instance locks or unlocks twice. -/
theorem lock_unlock_exactly_once_per_scope (lockOk unlockOk : Bool) (addr : Nat)
    (t : List Nat) (ops : List TKOp) (cut : Nat) :
    (runScope lockOk unlockOk addr t ops cut).2.count Event.lockEv = 1 ∧
    (runScope lockOk unlockOk addr t ops cut).2.count Event.unlockEv = 1 ∧
    (runScope lockOk unlockOk addr t ops cut).2.head? = some Event.lockEv ∧
    (runScope lockOk unlockOk addr t ops cut).2.getLast? = some Event.unlockEv := by
  obtain ⟨hl, hu, _, _⟩ := runOps_no_resource_events (ops.take cut) t
  simp only [runScope, TempKey.new, TempKey.drop, mlock, munlock]
  refine ⟨?_, ?_, ?_, ?_⟩
  · simp [List.count_append, List.count_eq_zero.mpr hl]
  · simp [List.count_append, List.count_eq_zero.mpr hu]
  · simp
  · rw [List.getLast?_concat]

/-- C2: equality between a wrapper and a raw value, and between two wrappers,
holds exactly when the two byte representations (of the common size of the
wrapped type) are identical; a wrapper equals its own bit pattern and differs
from any differing bit pattern. -/
theorem eq_iff_bytes_equal (addr addr2 : Nat) (a b : List Nat)
    (h : a.length = b.length) :
    (TempKey.eq ⟨addr, a⟩ b = true ↔ a = b) ∧
    (TempKey.eq_key ⟨addr, a⟩ ⟨addr2, b⟩ = true ↔ a = b) :=
  ⟨memeq_iff h, memeq_iff h⟩

theorem eq_iff_bytes_equal_witness :
    (([8, 8] : List Nat).length = ([8, 8] : List Nat).length) ∧
    ((TempKey.eq ⟨0, [8, 8]⟩ [8, 8] = true ↔ ([8, 8] : List Nat) = [8, 8]) ∧
     (TempKey.eq_key ⟨0, [8, 8]⟩ ⟨1, [8, 8]⟩ = true ↔ ([8, 8] : List Nat) = [8, 8])) :=
  ⟨rfl, eq_iff_bytes_equal 0 1 [8, 8] [8, 8] rfl⟩

/-- C3: the three-way comparison reports "equal" exactly when the equality
operation reports `true`, both against a raw value and between two wrappers. -/
theorem cmp_eq_iff_eq_true (addr addr2 : Nat) (a b : List Nat)
    (h : a.length = b.length) :
    (TempKey.partial_cmp ⟨addr, a⟩ b = some Ordering.eq ↔
      TempKey.eq ⟨addr, a⟩ b = true) ∧
    (TempKey.cmp ⟨addr, a⟩ ⟨addr2, b⟩ = Except.ok Ordering.eq ↔
      TempKey.eq_key ⟨addr, a⟩ ⟨addr2, b⟩ = true) := by
  have hiff : intCmp (memcmp a b) 0 = Ordering.eq ↔ memeq a b = true := by
    rw [intCmp_eq_iff, memcmp_eq_zero_iff h, memeq_iff h]
  constructor
  · simpa [TempKey.partial_cmp, TempKey.eq] using hiff
  · simpa [TempKey.cmp, TempKey.partial_cmp_key, TempKey.partial_cmp, unwrapOpt,
      TempKey.eq_key, TempKey.eq] using hiff

theorem cmp_eq_iff_eq_true_witness :
    (([3, 5] : List Nat).length = ([3, 7] : List Nat).length) ∧
    ((TempKey.partial_cmp ⟨0, [3, 5]⟩ [3, 7] = some Ordering.eq ↔
       TempKey.eq ⟨0, [3, 5]⟩ [3, 7] = true) ∧
     (TempKey.cmp ⟨0, [3, 5]⟩ ⟨1, [3, 7]⟩ = Except.ok Ordering.eq ↔
       TempKey.eq_key ⟨0, [3, 5]⟩ ⟨1, [3, 7]⟩ = true)) :=
  ⟨rfl, cmp_eq_iff_eq_true 0 1 [3, 5] [3, 7] rfl⟩

/-- C4: the partial comparison is total — it always returns `some` ordering,
against a raw value and against another wrapper — and therefore `Ord::cmp`,
which unwraps it, always returns an ordering and never panics. -/
theorem ordering_total_never_panics (a b : TempKey) (rhs : List Nat) :
    (TempKey.partial_cmp a rhs).isSome = true ∧
    (TempKey.partial_cmp_key a b).isSome = true ∧
    TempKey.cmp a b = Except.ok (intCmp (memcmp a.target b.target) 0) :=
  ⟨rfl, rfl, rfl⟩

/-- C5: no operation surfaces an error: construction returns a usable wrapper
(equal to its own contents) whatever the lock outcome, and is byte-for-byte
the same wrapper as under a successful lock; drop returns normally whatever
the unlock outcome; and the only potentially panicking operation, `Ord::cmp`,
always returns `ok`. -/
theorem no_error_surfaces_to_caller (lockOk unlockOk : Bool) (addr : Nat)
    (t : List Nat) (k b : TempKey) :
    (TempKey.new lockOk addr t).1 = ⟨addr, t⟩ ∧
    TempKey.new lockOk addr t = TempKey.new true addr t ∧
    TempKey.eq (TempKey.new lockOk addr t).1 t = true ∧
    TempKey.drop unlockOk k = (k.target, [Event.unlockEv]) ∧
    TempKey.drop unlockOk k = TempKey.drop true k ∧
    TempKey.cmp k b = Except.ok (intCmp (memcmp k.target b.target) 0) :=
  ⟨rfl, rfl, memeq_refl t, rfl, rfl, rfl⟩

/-- C6: the Debug representation is computed from the wrapper's address only —
two wrappers at the same address with different contents format identically —
and a non-ASCII secret byte such as 0xAB can never occur in the output, which
consists of ASCII codes below 128. -/
theorem debug_fmt_independent_of_secret (addr : Nat) (t1 t2 : List Nat) :
    TempKey.fmt ⟨addr, t1⟩ = TempKey.fmt ⟨addr, t2⟩ ∧
    (171 : Nat) ∉ TempKey.fmt ⟨addr, t1⟩ := by
  refine ⟨rfl, ?_⟩
  intro h
  unfold TempKey.fmt at h
  rcases List.mem_append.mp h with h1 | h2
  · rcases List.mem_append.mp h1 with ha | hb
    · exact absurd ha (by decide)
    · exact absurd (hexCodes_lt addr 171 hb) (by omega)
  · exact absurd h2 (by decide)

/-- C7: the number of byte-visiting steps of the equality and three-way
comparison operations is determined by the operand sizes alone — two pairs of
operands of the same size take the same number of steps, wherever and however
often their bytes differ. -/
theorem compare_steps_depend_only_on_size (k1 k2 : TempKey) (r1 r2 : List Nat)
    (ht : k1.target.length = k2.target.length) (hr : r1.length = r2.length) :
    TempKey.eqSteps k1 r1 = TempKey.eqSteps k2 r2 ∧
    TempKey.cmpSteps k1 r1 = TempKey.cmpSteps k2 r2 := by
  unfold TempKey.eqSteps TempKey.cmpSteps
  rw [ctEqRun_steps, ctEqRun_steps, ctCmpRun_steps, ctCmpRun_steps, ht, hr]
  exact ⟨rfl, rfl⟩

theorem compare_steps_depend_only_on_size_witness :
    ((⟨0, [0, 0]⟩ : TempKey).target.length = (⟨0, [5, 5]⟩ : TempKey).target.length) ∧
    (([1, 0] : List Nat).length = ([5, 6] : List Nat).length) ∧
    (TempKey.eqSteps ⟨0, [0, 0]⟩ [1, 0] = TempKey.eqSteps ⟨0, [5, 5]⟩ [5, 6] ∧
     TempKey.cmpSteps ⟨0, [0, 0]⟩ [1, 0] = TempKey.cmpSteps ⟨0, [5, 5]⟩ [5, 6]) :=
  ⟨rfl, rfl, compare_steps_depend_only_on_size ⟨0, [0, 0]⟩ ⟨0, [5, 5]⟩ [1, 0] [5, 6] rfl rfl⟩

/-- C8: read and mutate access act directly on the underlying value: after
writing `v` through the wrapper, reading through the wrapper yields exactly
`v`, and an equality check against `v` succeeds. -/
theorem read_after_write_through_wrapper (k : TempKey) (v : List Nat) :
    TempKey.deref (TempKey.deref_mut_write k v) = v ∧
    TempKey.eq (TempKey.deref_mut_write k v) v = true :=
  ⟨rfl, memeq_refl v⟩

/-- C9: construction and destruction leave the wrapped bytes untouched (no
zeroing on release), the comparison operations leave the memory unchanged, a
whole scope without mutate accesses returns the memory exactly as it started,
and no allocation or free of the storage is ever requested. -/
theorem frame_no_mutation_no_alloc (lockOk unlockOk : Bool) (addr : Nat)
    (t m rhs : List Nat) (k : TempKey) (ops : List TKOp) (cut : Nat)
    (hw : ∀ op ∈ ops, op.isWrite = false) :
    (TempKey.new lockOk addr t).1.target = t ∧
    (TempKey.drop unlockOk k).1 = k.target ∧
    applyOp m (TKOp.eqRawOp rhs) = m ∧
    applyOp m (TKOp.cmpRawOp rhs) = m ∧
    (runScope lockOk unlockOk addr t ops cut).1 = t ∧
    (runScope lockOk unlockOk addr t ops cut).2.count Event.allocEv = 0 ∧
    (runScope lockOk unlockOk addr t ops cut).2.count Event.freeEv = 0 := by
  obtain ⟨_, _, ha, hf⟩ := runOps_no_resource_events (ops.take cut) t
  refine ⟨rfl, rfl, rfl, rfl, ?_, ?_, ?_⟩
  · simp only [runScope, TempKey.new, TempKey.drop]
    exact runOps_fst_of_no_write (ops.take cut) t
      fun op hop => hw op (List.take_subset cut ops hop)
  · simp only [runScope, TempKey.new, TempKey.drop, mlock, munlock]
    simp [List.count_append, List.count_eq_zero.mpr ha]
  · simp only [runScope, TempKey.new, TempKey.drop, mlock, munlock]
    simp [List.count_append, List.count_eq_zero.mpr hf]

theorem frame_no_mutation_no_alloc_witness :
    (∀ op ∈ ([TKOp.readOp, TKOp.eqRawOp [1]] : List TKOp), op.isWrite = false) ∧
    ((TempKey.new true 0 [7]).1.target = [7] ∧
     (TempKey.drop true ⟨0, [3]⟩).1 = (⟨0, [3]⟩ : TempKey).target ∧
     applyOp [9] (TKOp.eqRawOp [1]) = [9] ∧
     applyOp [9] (TKOp.cmpRawOp [1]) = [9] ∧
     (runScope true true 0 [7] [TKOp.readOp, TKOp.eqRawOp [1]] 2).1 = [7] ∧
     (runScope true true 0 [7] [TKOp.readOp, TKOp.eqRawOp [1]] 2).2.count Event.allocEv = 0 ∧
     (runScope true true 0 [7] [TKOp.readOp, TKOp.eqRawOp [1]] 2).2.count Event.freeEv = 0) :=
  ⟨by decide, frame_no_mutation_no_alloc true true 0 [7] [9] [1] ⟨0, [3]⟩
    [TKOp.readOp, TKOp.eqRawOp [1]] 2 (by decide)⟩

/-- C10: wrapper-to-wrapper equality and ordering delegate to the
wrapper-to-raw-value operations on the other wrapper's contents, so the two
forms agree definitionally. -/
theorem key_ops_delegate_to_raw_ops (a b : TempKey) :
    TempKey.eq_key a b = TempKey.eq a b.target ∧
    TempKey.partial_cmp_key a b = TempKey.partial_cmp a b.target ∧
    TempKey.cmp a b = unwrapOpt (TempKey.partial_cmp a b.target) :=
  ⟨rfl, rfl, rfl⟩

end Seckey
